import Mathlib

/-!
# Verification of the DarkStone MTF archive reader (`mtf.c` / `mtf.h`)

A shallow embedding of the MTF archive decompressor and extraction pipeline.
Files are modelled as lists of bytes (`Nat`, each `< 256` in practice); the
seekable input stream of the C code becomes explicit list passing.  Machine
integers are modelled as `Nat` / `Int` (the C `int bytesLeft` counter is an
`Int` since it is deliberately allowed to go negative).

Error model: the C code reports failures through a global string set by
`mtf_error`.  The spec classifies those messages into `IoError` (short
read/seek/write failures) and `FormatError` (zero-entry table, size mismatch
mid-decode, path collision).  We mirror that classification with small
inductive error types, keeping track of which `mtf_error` call site each
constructor corresponds to.
-/

namespace DarkstoneMtf

/-- Errors of `mtf_decompress_write_file`:
* `readFail` — a failed `mtf_read8`/`mtf_read16` (short read; spec kind `IoError`);
* `sizeMismatch` — the `bytesLeft < 0` check after a back-reference copy
  (message "Compressed/decompressed size mismatch!", spec kind `FormatError`). -/
inductive DecompError where
  | readFail
  | sizeMismatch
deriving DecidableEq, Repr

/-- Outcome of processing the bits of one chunk-bitmask control byte
(the inner `for (int b = 0; b < 8; ++b)` loop of `mtf_decompress_write_file`):
either control returns to the outer `while (bytesLeft)` loop with the new
stream/buffer/counter state (both after all 8 bits and after the
zero-control-word `break`), or the entry fails. -/
inductive BitsOut where
  | next (input out : List Nat) (left : Int)
  | fail (e : DecompError)
deriving DecidableEq, Repr

/-- The byte read by `*(decompressedPtr - offset)`: `offset` positions behind
the current write cursor of the output buffer `out`.  The C code performs no
bounds check here; reading before the start of the buffer is undefined
behaviour in C and is modelled as defaulting (index clamped by `Nat`
subtraction / `getD` default `0`).  No theorem below depends on that case. -/
def backByte (out : List Nat) (offset : Nat) : Nat :=
  out.getD (out.length - offset) 0

/-- The back-reference copy loop `for (int n = 0; n < count + 3; ++n)` of
`mtf_decompress_write_file`: copies `n` bytes one at a time, each sourced
`offset` positions behind the *current* write cursor, so each copied byte is
immediately available as a source for the next (overlapping runs replicate). -/
def copyRun : List Nat → Nat → Nat → List Nat
  | out, _, 0 => out
  | out, offset, Nat.succ n => copyRun (out ++ [backByte out offset]) offset n

/-- The inner bit loop of `mtf_decompress_write_file`, processing the
remaining `bitsRem` bits of the control byte `c` (lowest bit first; `c` is
shifted right as bits are consumed, which models `chunkBits & (1 << b)` for
`b = 0, 1, ...`).  Arguments: remaining input stream, output buffer written
so far, `bytesLeft` counter.
* set bit — read one literal byte, append it, decrement the counter
  (no counter check in this branch, exactly as in the C code);
* clear bit — read one 16-bit little-endian word; if zero, `break` out of the
  bit loop; otherwise copy `count + 3` bytes (`count = word >> 10`,
  `offset = word & 0x3FF`) and fail with `sizeMismatch` if the counter went
  negative. -/
def procBits : Nat → Nat → List Nat → List Nat → Int → BitsOut
  | _, 0, input, out, left => .next input out left
  | c, Nat.succ bitsRem, input, out, left =>
    if c % 2 = 1 then
      match input with
      | [] => .fail .readFail
      | byte :: rest => procBits (c / 2) bitsRem rest (out ++ [byte]) (left - 1)
    else
      match input with
      | b0 :: b1 :: rest =>
        if b0 + 256 * b1 = 0 then
          .next rest out left
        else
          let count := (b0 + 256 * b1) / 1024
          let offset := (b0 + 256 * b1) % 1024
          let out2 := copyRun out offset (count + 3)
          let left2 := left - ((count : Int) + 3)
          if left2 < 0 then .fail .sizeMismatch
          else procBits (c / 2) bitsRem rest out2 left2
      | _ => .fail .readFail

/-- The outer `while (bytesLeft)` loop of `mtf_decompress_write_file`.
`fuel` bounds the number of iterations; since every iteration consumes at
least the one chunk control byte from the input, `input.length + 1` iterations
always suffice (`decompLoopF_fuel_irrelevant` below shows any adequate fuel
gives the same result, so the fuel is a termination device, not semantics).
Note the loop condition is `bytesLeft ≠ 0`: a negative counter (possible via
the unchecked literal branch) keeps the loop running, as in the C code. -/
def decompLoopF : Nat → List Nat → List Nat → Int → Except DecompError (List Nat)
  | 0, _, _, _ => .error .readFail
  | Nat.succ _, [], out, left =>
    if left = 0 then .ok out else .error .readFail
  | Nat.succ fuel, chunk :: rest, out, left =>
    if left = 0 then .ok out
    else
      match procBits chunk 8 rest out left with
      | .fail e => .error e
      | .next input2 out2 left2 => decompLoopF fuel input2 out2 left2

/-- `mtf_decompress_write_file` (minus the actual `fwrite`, which on success
writes the returned buffer of `decompressedSize` bytes verbatim): decode the
compressed byte stream `input` (positioned just past the 12-byte compressed
header) against the declared output size. -/
def mtf_decompress (input : List Nat) (decompressedSize : Nat) :
    Except DecompError (List Nat) :=
  decompLoopF (input.length + 1) input [] (decompressedSize : Int)

/-- A compressed stream consisting solely of set-bit chunks: every control
byte is `0xFF` and every payload byte is a literal.  (A final short group is
also emitted under a `0xFF` control byte; the theorems below only use the
case where the literal count is a multiple of 8, which is the only case in
which such a stream is well formed for the decoder.) -/
def literalEncode : List Nat → List Nat
  | [] => []
  | b1 :: b2 :: b3 :: b4 :: b5 :: b6 :: b7 :: b8 :: rest =>
      255 :: b1 :: b2 :: b3 :: b4 :: b5 :: b6 :: b7 :: b8 :: literalEncode rest
  | bs => 255 :: bs

/-- Errors of `mtf_file_open`: `ioError` covers every failed
`mtf_read32` (short read); `formatError` is the `fileEntryCount == 0`
rejection.  (The `fopen`/`malloc` failures of the C code have no
counterpart in this pure model.) -/
inductive OpenError where
  | ioError
  | formatError
deriving DecidableEq, Repr

/-- `mtf_file_entry_t` of `mtf.h`: `filename` holds the bytes read from the
archive (the C code appends its own terminator after them); comparisons use
C-string semantics via `cstr` below. -/
structure mtf_file_entry_t where
  filename : List Nat
  filenameLength : Nat
  dataOffset : Nat
  decompressedSize : Nat
deriving DecidableEq, Repr

/-- `mtf_read32`: one little-endian 32-bit word, failing on a short read. -/
def readU32 : List Nat → Option (Nat × List Nat)
  | b0 :: b1 :: b2 :: b3 :: rest =>
      some (b0 + 256 * b1 + 65536 * b2 + 16777216 * b3, rest)
  | _ => none

/-- One iteration of the entry-reading loop of `mtf_file_open`: a 32-bit
filename length, then that many filename bytes (`fread` unchecked — the
model takes whatever is available), then the 32-bit data offset and
decompressed size. -/
def readEntryRecord (input : List Nat) : Except OpenError (mtf_file_entry_t × List Nat) :=
  match readU32 input with
  | none => .error .ioError
  | some (flen, input1) =>
    match readU32 (input1.drop flen) with
    | none => .error .ioError
    | some (doff, input3) =>
      match readU32 input3 with
      | none => .error .ioError
      | some (dsize, input4) =>
        .ok ({ filename := input1.take flen, filenameLength := flen,
               dataOffset := doff, decompressedSize := dsize }, input4)

/-- The entry-reading `for` loop of `mtf_file_open`. -/
def readEntries : Nat → List Nat → Except OpenError (List mtf_file_entry_t × List Nat)
  | 0, input => .ok ([], input)
  | Nat.succ n, input =>
    match readEntryRecord input with
    | .error e => .error e
    | .ok (entry, input2) =>
      match readEntries n input2 with
      | .error e => .error e
      | .ok (es, restOut) => .ok (entry :: es, restOut)

/-- The C string actually seen by `strcmp`: the stored bytes up to the first
NUL (the loader appends its own terminator after the raw bytes). -/
def cstr (s : List Nat) : List Nat :=
  s.takeWhile (fun b => b != 0)

/-- `strcmp(a, b) <= 0` on NUL-free byte lists: byte-wise lexicographic
comparison as unsigned values, a shorter string (hitting its terminator
first) comparing below any proper extension. -/
def lexLe : List Nat → List Nat → Bool
  | [], _ => true
  | _ :: _, [] => false
  | a :: as, b :: bs => if a < b then true else if b < a then false else lexLe as bs

/-- Insertion into a sorted list (the model for `qsort`'s guarantee). -/
def insertSorted {α : Type} (le : α → α → Bool) (x : α) : List α → List α
  | [] => [x]
  | y :: ys => if le x y then x :: y :: ys else y :: insertSorted le x ys

/-- Insertion sort: a sorted permutation of the input, which is all the C
standard guarantees about `qsort`. -/
def sortByLe {α : Type} (le : α → α → Bool) : List α → List α
  | [] => []
  | x :: xs => insertSorted le x (sortByLe le xs)

/-- The `mtf_sort_by_filename` comparison (`strcmp` on the two entries'
filenames), as a boolean "less or equal". -/
def mtf_sort_by_filename_le (a b : mtf_file_entry_t) : Bool :=
  lexLe (cstr a.filename) (cstr b.filename)

/-- `mtf_file_open`: read the 32-bit entry count (short read → `ioError`),
reject a zero count (`formatError`), read `count` entry records (any failed
32-bit read → `ioError`), then sort the table by filename.  The C code's
`fopen`/`malloc` failures and the `mtf_file_close` releases on every failure
path concern OS resources with no counterpart in this pure model. -/
def mtf_file_open (archive : List Nat) : Except OpenError (List mtf_file_entry_t) :=
  match readU32 archive with
  | none => .error .ioError
  | some (count, rest) =>
    if count = 0 then .error .formatError
    else
      match readEntries count rest with
      | .error e => .error e
      | .ok (es, _) => .ok (sortByLe mtf_sort_by_filename_le es)

/-- `mtf_file_t` of `mtf.h`: `osFileHandle` records whether a non-NULL
`FILE*` is held; `fileEntries` is the entry array pointer (`none` = NULL);
`fileEntryCount` the stored count. -/
structure mtf_file_t where
  osFileHandle : Bool
  fileEntries : Option (List mtf_file_entry_t)
  fileEntryCount : Nat
deriving DecidableEq, Repr

/-- `mtf_file_close`: the argument is an `Option` because the C function
accepts a NULL pointer (and returns at once).  `fclose`/`free` release
resources with no model counterpart; the observable effect is the field
updates: the handle is nulled whenever held, and the entries pointer —
together with the count — is cleared *only inside* the
`if (mtf->fileEntries != NULL)` block, exactly as in the C code. -/
def mtf_file_close : Option mtf_file_t → Option mtf_file_t
  | none => none
  | some m =>
    let m1 := if m.osFileHandle then { m with osFileHandle := false } else m
    let m2 := if m1.fileEntries.isSome then
        { m1 with fileEntries := none, fileEntryCount := 0 }
      else m1
    some m2

/-- `mtf_compressed_header_t` of `mtf.h`: 12 bytes — two magic bytes, a
16-bit unknown field, and two 32-bit advisory sizes. -/
structure mtf_compressed_header_t where
  magic1 : Nat
  magic2 : Nat
  unknown : Nat
  compressedSize : Nat
  decompressedSize : Nat
deriving DecidableEq, Repr

def byteAt (archive : List Nat) (i : Nat) : Nat :=
  archive.getD i 0

/-- The 12 header bytes at `offset`, assembled little-endian.  Bytes past
the end of the archive are indeterminate in C (the struct holds whatever
the partial `fread` left there); the model defaults them to 0 via `byteAt`,
and every theorem about a past-the-end header quantifies over an arbitrary
`mtf_compressed_header_t` instead, so nothing rests on that default. -/
def mtf_compressed_header_bytes (archive : List Nat) (offset : Nat) :
    mtf_compressed_header_t :=
  { magic1 := byteAt archive offset
    magic2 := byteAt archive (offset + 1)
    unknown := byteAt archive (offset + 2) + 256 * byteAt archive (offset + 3)
    compressedSize := byteAt archive (offset + 4) +
      256 * byteAt archive (offset + 5) + 65536 * byteAt archive (offset + 6) +
      16777216 * byteAt archive (offset + 7)
    decompressedSize := byteAt archive (offset + 8) +
      256 * byteAt archive (offset + 9) + 65536 * byteAt archive (offset + 10) +
      16777216 * byteAt archive (offset + 11) }

/-- `mtf_read_compressed_header`: seek to the entry's offset, `fread` the
12-byte header *without checking the return value*, and report
`!ferror(fileIn)`.  An `fread` that comes up short at the end of the archive
sets only the end-of-file indicator, never the error indicator, so on a
healthy stream the probe always succeeds — even past the end of the
archive, where the header bytes are indeterminate.  The `none` outcome
corresponds to `ferror`, i.e. a device-level stream error, which a byte
list cannot produce; it is kept so that the caller's fatal branch remains
visible in `extractLoop`. -/
def mtf_read_compressed_header (archive : List Nat) (offset : Nat) :
    Option mtf_compressed_header_t :=
  some (mtf_compressed_header_bytes archive offset)

/-- `mtf_is_compressed`: the two magic-byte pairs from the Xentax wiki. -/
def mtf_is_compressed (header : mtf_compressed_header_t) : Bool :=
  if header.magic1 = 0xAE ∧ header.magic2 = 0xBE then true
  else if header.magic1 = 0xAF ∧ header.magic2 = 0xBE then true
  else false

/-- `mtf_write_file` (raw copy): seek back to the entry's `dataOffset` and
copy exactly `sizeInBytes` bytes verbatim; a short read fails the entry. -/
def mtf_write_file (archive : List Nat) (sizeInBytes readOffset : Nat) :
    Option (List Nat) :=
  if readOffset + sizeInBytes ≤ archive.length then
    some ((archive.drop readOffset).take sizeInBytes)
  else none

/-- The per-entry payload step of `mtf_file_extract_batch` once the 12-byte
header has been read: if the magic bytes match, decompress from just past
the header (the stream is already positioned there); otherwise seek back to
`dataOffset` and copy the declared `decompressedSize` bytes verbatim. -/
def extractEntryPayload (archive : List Nat) (header : mtf_compressed_header_t)
    (entry : mtf_file_entry_t) : Option (List Nat) :=
  if mtf_is_compressed header then
    (mtf_decompress (archive.drop (entry.dataOffset + 12)) entry.decompressedSize).toOption
  else
    mtf_write_file archive entry.decompressedSize entry.dataOffset

/-- `mtf_is_ascii`: bytes 0–127.  (The C check `ch >= 0 && ch < 128` on a
possibly signed `char` classifies bytes ≥ 128 as non-ASCII on either a
signed or an unsigned `char` platform.) -/
def mtf_is_ascii (ch : Nat) : Bool :=
  ch < 128

/-- `mtf_fix_filepath`: every backslash becomes the platform separator
`'/'`, every byte outside the ASCII range 0–127 becomes `'?'`. -/
def mtf_fix_filepath (pathInOut : List Nat) : List Nat :=
  pathInOut.map fun b => if b = 92 then 47 else if mtf_is_ascii b then b else 63

/-- The `snprintf(extractionPath, ..., "%s/%s", destPath, entry->filename)`
followed by `mtf_fix_filepath` in `mtf_file_extract_batch` (the model
ignores the `MTF_MAX_PATH_LEN` truncation, which no theorem exercises). -/
def materializePath (destPath filename : List Nat) : List Nat :=
  mtf_fix_filepath (destPath ++ 47 :: filename)

/-- `stat`: look a path up in the file system (`true` = directory). -/
def pathLookup : List (List Nat × Bool) → List Nat → Option Bool
  | [], _ => none
  | (p, isDir) :: rest, q => if p = q then some isDir else pathLookup rest q

/-- `mtf_make_directory`: `stat` miss → `mkdir` (idempotent creation);
existing directory → success without change; existing plain file → failure
(message "Can't mkdir()! Path points to a file.", spec kind `FormatError`). -/
def mtf_make_directory (fs : List (List Nat × Bool)) (dirPath : List Nat) :
    Option (List (List Nat × Bool)) :=
  match pathLookup fs dirPath with
  | none => some ((dirPath, true) :: fs)
  | some true => some fs
  | some false => none

/-- The scanning loop of `mtf_make_path`: at each separator (`'/'` or
`'\\'`), create the directory named by the prefix scanned so far. -/
def makePathLoop : List (List Nat × Bool) → List Nat → List Nat →
    Option (List (List Nat × Bool))
  | fs, _, [] => some fs
  | fs, done, c :: cs =>
    if c = 47 ∨ c = 92 then
      match mtf_make_directory fs done with
      | none => none
      | some fs2 => makePathLoop fs2 (done ++ [47]) cs
    else makePathLoop fs (done ++ [c]) cs

/-- `mtf_make_path`: create every missing intermediate directory component
of a path ending in a separator or a filename. -/
def mtf_make_path (fs : List (List Nat × Bool)) (path : List Nat) :
    Option (List (List Nat × Bool)) :=
  makePathLoop fs [] path

/-! ## Extraction orchestrator (`mtf_file_extract_batch`)
The per-entry loop over the sorted table.  The `none` arm mirrors the C
code's `if (!mtf_read_compressed_header(...)) return false` — fatal to the
whole batch, but reachable only through a device-level stream error
(`ferror`), never on a healthy byte stream (see
`mtf_read_compressed_header`).  A failed payload (decode error or short
raw read) merely skips the entry.  The output `fopen` and the final `fwrite`
of the C code always succeed in the pure model (the destination file system
is not a source of failure here), and path materialization has no influence
on the success count. -/
def extractLoop (archive : List Nat) (maxFileToExtract : Int) :
    List mtf_file_entry_t → Nat → Option Nat
  | [], successCount => some successCount
  | entry :: rest, successCount =>
    match mtf_read_compressed_header archive entry.dataOffset with
    | none => none
    | some header =>
      match extractEntryPayload archive header entry with
      | some _ =>
        if maxFileToExtract > 0 ∧ ((successCount + 1 : Nat) : Int) = maxFileToExtract then
          some (successCount + 1)
        else extractLoop archive maxFileToExtract rest (successCount + 1)
      | none => extractLoop archive maxFileToExtract rest successCount

/-- `mtf_file_extract_batch`: open (fatal on failure), then run the entry
loop from a zero success count; the result is the reported
`filesExtracted`. -/
def mtf_file_extract_batch (archive : List Nat) (maxFileToExtract : Int) : Option Nat :=
  match mtf_file_open archive with
  | .error _ => none
  | .ok es => extractLoop archive maxFileToExtract es 0

/-- Whether one entry's payload would extract (header readable and payload
produced) — the success condition of one loop iteration. -/
def entryExtractOk (archive : List Nat) (entry : mtf_file_entry_t) : Bool :=
  match mtf_read_compressed_header archive entry.dataOffset with
  | none => false
  | some header => (extractEntryPayload archive header entry).isSome

/-- A 20-byte all-zero archive body: its byte pairs never match the magic
values, so every entry against it takes the raw-copy path. -/
def exampleArchive : List Nat :=
  List.replicate 20 0

/-- Raw entry whose 4 declared bytes lie inside `exampleArchive`. -/
def exampleGoodEntry : mtf_file_entry_t :=
  { filename := [], filenameLength := 0, dataOffset := 0, decompressedSize := 4 }

/-- Entry whose declared size overruns `exampleArchive`: its header reads
fine but the raw copy's `fread` comes up short, failing the payload. -/
def exampleBadEntry : mtf_file_entry_t :=
  { filename := [], filenameLength := 0, dataOffset := 0, decompressedSize := 100 }

/-- Entry whose `dataOffset` lies entirely past the end of
`exampleArchive`: the 12-byte header `fread` reads nothing (EOF, not
`ferror`), so the probe still succeeds with an indeterminate header and the
payload then inevitably fails. -/
def exampleTruncEntry : mtf_file_entry_t :=
  { filename := [], filenameLength := 0, dataOffset := 25, decompressedSize := 1 }

/-! ## Unfolding lemmas for the bit loop -/
theorem copyRun_length (n : Nat) (out : List Nat) (offset : Nat) :
    (copyRun out offset n).length = out.length + n := by
  induction n generalizing out with
  | zero => simp [copyRun]
  | succ n ih =>
    simp only [copyRun, ih, List.length_append, List.length_cons, List.length_nil]
    omega

/-- Set flag bit, input available: read the literal byte unchanged. -/
theorem procBits_lit {c : Nat} (n : Nat) (byte : Nat) (rest out : List Nat) (left : Int)
    (hc : c % 2 = 1) :
    procBits c (n + 1) (byte :: rest) out left =
      procBits (c / 2) n rest (out ++ [byte]) (left - 1) := by
  simp [procBits, hc]

/-- Set flag bit but the stream is exhausted: `mtf_read8` fails. -/
theorem procBits_lit_nil {c : Nat} (n : Nat) (out : List Nat) (left : Int)
    (hc : c % 2 = 1) :
    procBits c (n + 1) [] out left = .fail .readFail := by
  simp [procBits, hc]

/-- Clear flag bit, zero control word: `break` out of the bit loop,
returning to the outer loop with the state untouched. -/
theorem procBits_zero_word {c : Nat} (n : Nat) (b0 b1 : Nat) (rest out : List Nat)
    (left : Int) (hc : c % 2 = 0) (hw : b0 + 256 * b1 = 0) :
    procBits c (n + 1) (b0 :: b1 :: rest) out left = .next rest out left := by
  simp [procBits, hc, hw]

/-- Clear flag bit, nonzero control word: copy `count + 3` bytes from
`offset` behind the cursor, then check the counter for underflow. -/
theorem procBits_backref {c : Nat} (n : Nat) (b0 b1 : Nat) (rest out : List Nat)
    (left : Int) (hc : c % 2 = 0) (hw : b0 + 256 * b1 ≠ 0) :
    procBits c (n + 1) (b0 :: b1 :: rest) out left =
      if left - (((b0 + 256 * b1) / 1024 : Nat) + 3) < 0 then .fail .sizeMismatch
      else procBits (c / 2) n rest
        (copyRun out ((b0 + 256 * b1) % 1024) ((b0 + 256 * b1) / 1024 + 3))
        (left - (((b0 + 256 * b1) / 1024 : Nat) + 3)) := by
  simp [procBits, hc, hw]

/-- Clear flag bit but fewer than two bytes remain: `mtf_read16` fails. -/
theorem procBits_word_nil {c : Nat} (n : Nat) (out : List Nat) (left : Int)
    (hc : c % 2 = 0) :
    procBits c (n + 1) [] out left = .fail .readFail := by
  simp [procBits, hc]

/-- Clear flag bit but only one byte remains: `mtf_read16` fails. -/
theorem procBits_word_one {c : Nat} (n : Nat) (b0 : Nat) (out : List Nat) (left : Int)
    (hc : c % 2 = 0) :
    procBits c (n + 1) [b0] out left = .fail .readFail := by
  simp [procBits, hc]

/-- Loop guard: `while (bytesLeft)` exits as soon as the counter is zero and
the decoded buffer is accepted. -/
theorem decompLoopF_done (fuel : Nat) (input out : List Nat) :
    decompLoopF (fuel + 1) input out 0 = .ok out := by
  cases input <;> simp [decompLoopF]

/-- Bytes still outstanding but the stream has no further chunk byte:
`mtf_read8` of the chunk bitmask fails. -/
theorem decompLoopF_nil (fuel : Nat) (out : List Nat) (left : Int) (hl : left ≠ 0) :
    decompLoopF (fuel + 1) [] out left = .error .readFail := by
  simp [decompLoopF, hl]

/-- One outer iteration whose bit loop hands control back. -/
theorem decompLoopF_step_next (fuel chunk : Nat) (rest out : List Nat) (left : Int)
    (i2 o2 : List Nat) (l2 : Int) (hl : left ≠ 0)
    (hp : procBits chunk 8 rest out left = .next i2 o2 l2) :
    decompLoopF (fuel + 1) (chunk :: rest) out left = decompLoopF fuel i2 o2 l2 := by
  simp [decompLoopF, hl, hp]

/-- One outer iteration whose bit loop fails: the entry is aborted. -/
theorem decompLoopF_step_fail (fuel chunk : Nat) (rest out : List Nat) (left : Int)
    (e : DecompError) (hl : left ≠ 0)
    (hp : procBits chunk 8 rest out left = .fail e) :
    decompLoopF (fuel + 1) (chunk :: rest) out left = .error e := by
  simp [decompLoopF, hl, hp]

/-- The `bytesLeft` counter is decremented exactly once per byte appended to
the output buffer: across the bit loop, the drop in the counter equals the
growth of the buffer. -/
theorem procBits_next_left {c bitsRem : Nat} {input out : List Nat} {left : Int}
    {input2 out2 : List Nat} {left2 : Int}
    (h : procBits c bitsRem input out left = .next input2 out2 left2) :
    left2 = left - ((out2.length : Int) - (out.length : Int)) := by
  induction bitsRem generalizing c input out left with
  | zero =>
    simp only [procBits, BitsOut.next.injEq] at h
    obtain ⟨-, h2, h3⟩ := h
    subst h2; subst h3
    ring
  | succ n ih =>
    by_cases hc : c % 2 = 1
    · rcases input with _ | ⟨byte, rest⟩
      · rw [procBits_lit_nil n out left hc] at h
        simp at h
      · rw [procBits_lit n byte rest out left hc] at h
        have h2 := ih h
        simp only [List.length_append, List.length_cons, List.length_nil] at h2
        push_cast at h2 ⊢
        omega
    · have hc0 : c % 2 = 0 := by omega
      rcases input with _ | ⟨b0, _ | ⟨b1, rest⟩⟩
      · rw [procBits_word_nil n out left hc0] at h
        simp at h
      · rw [procBits_word_one n b0 out left hc0] at h
        simp at h
      · by_cases hw : b0 + 256 * b1 = 0
        · rw [procBits_zero_word n b0 b1 rest out left hc0 hw] at h
          simp only [BitsOut.next.injEq] at h
          obtain ⟨-, h2, h3⟩ := h
          subst h2; subst h3
          ring
        · rw [procBits_backref n b0 b1 rest out left hc0 hw] at h
          by_cases hneg : left - (((b0 + 256 * b1) / 1024 : Nat) + 3) < 0
          · rw [if_pos hneg] at h
            simp at h
          · rw [if_neg hneg] at h
            have h2 := ih h
            rw [copyRun_length] at h2
            push_cast at h2 ⊢
            omega

/-- The bit loop only consumes input bytes. -/
theorem procBits_next_input_length {c bitsRem : Nat} {input out : List Nat} {left : Int}
    {input2 out2 : List Nat} {left2 : Int}
    (h : procBits c bitsRem input out left = .next input2 out2 left2) :
    input2.length ≤ input.length := by
  induction bitsRem generalizing c input out left with
  | zero =>
    simp only [procBits, BitsOut.next.injEq] at h
    obtain ⟨h1, -, -⟩ := h
    subst h1
    exact Nat.le_refl _
  | succ n ih =>
    by_cases hc : c % 2 = 1
    · rcases input with _ | ⟨byte, rest⟩
      · rw [procBits_lit_nil n out left hc] at h
        simp at h
      · rw [procBits_lit n byte rest out left hc] at h
        have := ih h
        simp only [List.length_cons]
        omega
    · have hc0 : c % 2 = 0 := by omega
      rcases input with _ | ⟨b0, _ | ⟨b1, rest⟩⟩
      · rw [procBits_word_nil n out left hc0] at h
        simp at h
      · rw [procBits_word_one n b0 out left hc0] at h
        simp at h
      · by_cases hw : b0 + 256 * b1 = 0
        · rw [procBits_zero_word n b0 b1 rest out left hc0 hw] at h
          simp only [BitsOut.next.injEq] at h
          obtain ⟨h1, -, -⟩ := h
          subst h1
          simp only [List.length_cons]
          omega
        · rw [procBits_backref n b0 b1 rest out left hc0 hw] at h
          by_cases hneg : left - (((b0 + 256 * b1) / 1024 : Nat) + 3) < 0
          · rw [if_pos hneg] at h
            simp at h
          · rw [if_neg hneg] at h
            have := ih h
            simp only [List.length_cons]
            omega

/-- On any successful exit of the decode loop, the returned buffer holds
exactly the initial counter's worth of bytes more than the initial buffer. -/
theorem decompLoopF_ok_length {fuel : Nat} {input out : List Nat} {left : Int}
    {res : List Nat} (h : decompLoopF fuel input out left = .ok res) :
    (res.length : Int) = (out.length : Int) + left := by
  induction fuel generalizing input out left with
  | zero => simp [decompLoopF] at h
  | succ fuel ih =>
    by_cases hl : left = 0
    · subst hl
      rw [decompLoopF_done] at h
      simp only [Except.ok.injEq] at h
      subst h
      ring
    · rcases input with _ | ⟨chunk, rest⟩
      · rw [decompLoopF_nil fuel out left hl] at h
        simp at h
      · rcases hp : procBits chunk 8 rest out left with ⟨i2, o2, l2⟩ | e
        · rw [decompLoopF_step_next fuel chunk rest out left i2 o2 l2 hl hp] at h
          have h2 := ih h
          have h3 := procBits_next_left hp
          omega
        · rw [decompLoopF_step_fail fuel chunk rest out left e hl hp] at h
          simp at h

/-- Every iteration of the outer loop consumes at least one input byte, so
any fuel exceeding the input length yields the same result: the fuel is a
termination bound, not part of the semantics. -/
theorem decompLoopF_fuel_irrelevant :
    ∀ f1 f2 : Nat, ∀ input out : List Nat, ∀ left : Int,
      input.length < f1 → input.length < f2 →
      decompLoopF f1 input out left = decompLoopF f2 input out left := by
  intro f1
  induction f1 with
  | zero => intro f2 input out left h1 _; omega
  | succ a ih =>
    intro f2 input out left h1 h2
    rcases f2 with - | b
    · omega
    by_cases hl : left = 0
    · subst hl
      rw [decompLoopF_done, decompLoopF_done]
    · rcases input with _ | ⟨chunk, rest⟩
      · rw [decompLoopF_nil a out left hl, decompLoopF_nil b out left hl]
      · rcases hp : procBits chunk 8 rest out left with ⟨i2, o2, l2⟩ | e
        · have hlen := procBits_next_input_length hp
          simp only [List.length_cons] at h1 h2
          have ha : i2.length < a := by omega
          have hb : i2.length < b := by omega
          rw [decompLoopF_step_next a chunk rest out left i2 o2 l2 hl hp,
            decompLoopF_step_next b chunk rest out left i2 o2 l2 hl hp]
          exact ih b i2 o2 l2 ha hb
        · rw [decompLoopF_step_fail a chunk rest out left e hl hp,
            decompLoopF_step_fail b chunk rest out left e hl hp]

/-! ## The degenerate run-length back-reference (`offset = 1`) -/
theorem getD_append_singleton (zs : List Nat) (a : Nat) :
    (zs ++ [a]).getD zs.length 0 = a := by
  induction zs with
  | nil => rfl
  | cons z zs ih => simp [List.getD_cons_succ, ih]

theorem backByte_append_singleton (zs : List Nat) (a : Nat) :
    backByte (zs ++ [a]) 1 = a := by
  unfold backByte
  have hlen : (zs ++ [a]).length - 1 = zs.length := by
    simp
  rw [hlen, getD_append_singleton]

/-- A self-referential copy with `offset = 1` replicates the most recent
output byte: each copied byte immediately becomes the source of the next. -/
theorem copyRun_offset_one (n : Nat) (zs : List Nat) (a : Nat) :
    copyRun (zs ++ [a]) 1 n = zs ++ a :: List.replicate n a := by
  induction n generalizing zs with
  | zero => simp [copyRun]
  | succ n ih =>
    rw [copyRun, backByte_append_singleton]
    have h2 := ih (zs ++ [a])
    rw [h2]
    simp [List.replicate_succ]

/-- A `0xFF` chunk bitmask consumes its next 8 input bytes as literals. -/
theorem procBits_all_set (b1 b2 b3 b4 b5 b6 b7 b8 : Nat) (rest out : List Nat)
    (left : Int) :
    procBits 255 8 (b1 :: b2 :: b3 :: b4 :: b5 :: b6 :: b7 :: b8 :: rest) out left =
      .next rest (out ++ [b1, b2, b3, b4, b5, b6, b7, b8]) (left - 8) := by
  simp [procBits]
  omega

theorem literalEncode_length (k : Nat) : ∀ bs : List Nat, bs.length = 8 * k →
    (literalEncode bs).length = 9 * k := by
  induction k with
  | zero =>
    intro bs hlen
    have : bs = [] := List.length_eq_zero.mp (by omega)
    subst this
    rfl
  | succ k ih =>
    intro bs hlen
    rcases bs with _ | ⟨b1, _ | ⟨b2, _ | ⟨b3, _ | ⟨b4, _ | ⟨b5, _ | ⟨b6, _ | ⟨b7, _ | ⟨b8, rest⟩⟩⟩⟩⟩⟩⟩⟩ <;>
      simp only [List.length_cons, List.length_nil] at hlen ⊢ <;> try omega
    have hrest : rest.length = 8 * k := by omega
    rw [literalEncode]
    simp only [List.length_cons, ih rest hrest]
    omega

theorem decompLoopF_literal (k : Nat) : ∀ (bs out : List Nat) (fuel : Nat),
    bs.length = 8 * k → k < fuel →
    decompLoopF fuel (literalEncode bs) out ((8 * k : Nat) : Int) = .ok (out ++ bs) := by
  induction k with
  | zero =>
    intro bs out fuel hlen hfuel
    have hbs : bs = [] := List.length_eq_zero.mp (by omega)
    subst hbs
    rcases fuel with - | f
    · omega
    · rw [show ((8 * 0 : Nat) : Int) = 0 by norm_num, literalEncode, decompLoopF_done]
      simp
  | succ k ih =>
    intro bs out fuel hlen hfuel
    rcases bs with _ | ⟨b1, _ | ⟨b2, _ | ⟨b3, _ | ⟨b4, _ | ⟨b5, _ | ⟨b6, _ | ⟨b7, _ | ⟨b8, rest⟩⟩⟩⟩⟩⟩⟩⟩ <;>
      simp only [List.length_cons, List.length_nil] at hlen <;> try omega
    have hrest : rest.length = 8 * k := by omega
    rcases fuel with - | f
    · omega
    rw [literalEncode]
    rw [decompLoopF_step_next f 255
      (b1 :: b2 :: b3 :: b4 :: b5 :: b6 :: b7 :: b8 :: literalEncode rest) out
      ((8 * (k + 1) : Nat) : Int) (literalEncode rest) (out ++ [b1, b2, b3, b4, b5, b6, b7, b8])
      (((8 * (k + 1) : Nat) : Int) - 8) (by push_cast; omega)
      (procBits_all_set b1 b2 b3 b4 b5 b6 b7 b8 (literalEncode rest) out _)]
    have harg : ((8 * (k + 1) : Nat) : Int) - 8 = ((8 * k : Nat) : Int) := by push_cast; omega
    rw [harg, ih rest (out ++ [b1, b2, b3, b4, b5, b6, b7, b8]) f hrest (by omega)]
    simp

/-- C1 (amended): (1) whenever `mtf_decompress_write_file` succeeds, the
decoded buffer — and hence the `fwrite` to the output file — holds exactly
the declared `decompressedSize` bytes; (2) a back-reference copy that drives
the remaining-byte counter negative fails with the size-mismatch
`FormatError`.  (The literal-byte branch performs no such check — see the
counterexample `mtf_decompress_literal_overrun_io`.) -/
theorem mtf_decompress_exact_size :
    (∀ (input : List Nat) (size : Nat) (res : List Nat),
      mtf_decompress input size = .ok res → res.length = size) ∧
    (∀ (c n b0 b1 : Nat) (rest out : List Nat) (left : Int),
      c % 2 = 0 → b0 + 256 * b1 ≠ 0 →
      left - (((b0 + 256 * b1) / 1024 : Nat) + 3) < 0 →
      procBits c (n + 1) (b0 :: b1 :: rest) out left = .fail .sizeMismatch) := by
  constructor
  · intro input size res h
    have h2 := decompLoopF_ok_length h
    simp only [List.length_nil] at h2
    omega
  · intro c n b0 b1 rest out left hc hw hneg
    rw [procBits_backref n b0 b1 rest out left hc hw, if_pos hneg]

theorem mtf_decompress_exact_size_witness :
    ([65] : List Nat).length = 1 ∧
    procBits 0 1 [255, 255] [] 0 = .fail .sizeMismatch :=
  ⟨mtf_decompress_exact_size.1 [1, 65, 0, 0] 1 [65] rfl,
   mtf_decompress_exact_size.2 0 0 255 255 [] [] 0 rfl (by decide) (by decide)⟩

/-- C1 counterexample: on input `[0xFF, 10, 20]` with declared size 1, the
all-set control byte makes the literal branch write a second byte past the
declared size (the decode passes through the state with buffer `[10, 20]`
and counter `-1`, as the middle equation shows) and the entry then fails
with a *read* error (`IoError`) when the stream runs dry — not with the
`FormatError` the claim requires for every over-production path. -/
theorem mtf_decompress_literal_overrun_io :
    mtf_decompress [255, 10, 20] 1 = .error .readFail ∧
    procBits 255 8 [10, 20] [] 1 = procBits 63 6 [] [10, 20] (-1) ∧
    DecompError.readFail ≠ DecompError.sizeMismatch :=
  ⟨rfl, rfl, by decide⟩

/-- C2: after a confirmed compression header the decoder processes each
control byte lowest bit first; a set bit appends one literal input byte; a
clear bit reads a 16-bit little-endian word and, when nonzero, copies
`count + 3` bytes each sourced `offset` positions behind the current write
cursor, so overlapping runs replicate.  Conjuncts: (1) a back-reference
`count = 0, offset = 1` (word `= 1`) against a buffer whose most recent byte
is `0x41` appends exactly three `0x41` bytes; (2) a stream consisting solely
of set-bit chunks reproduces its literal bytes exactly; (3) a concrete mixed
stream exercising the LSB-first order, the literal branch and an overlapping
back-reference. -/
theorem mtf_decompress_bit_scan_semantics :
    (∀ (c n : Nat) (rest ys : List Nat) (left : Int),
      c % 2 = 0 → ¬left - 3 < 0 →
      procBits c (n + 1) (1 :: 0 :: rest) (ys ++ [65]) left =
        procBits (c / 2) n rest (ys ++ [65, 65, 65, 65]) (left - 3)) ∧
    (∀ (k : Nat) (bs : List Nat), bs.length = 8 * k →
      mtf_decompress (literalEncode bs) bs.length = .ok bs) ∧
    mtf_decompress [5, 65, 1, 0, 66, 0, 0] 5 = .ok [65, 65, 65, 65, 66] := by
  refine ⟨?_, ?_, rfl⟩
  · intro c n rest ys left hc hleft
    rw [procBits_backref n 1 0 rest (ys ++ [65]) left hc (by decide)]
    norm_num
    rw [if_neg (show ¬left < 3 by omega), copyRun_offset_one]
    norm_num [List.replicate_succ]
  · intro k bs hlen
    unfold mtf_decompress
    rw [hlen]
    have hfuel : k < (literalEncode bs).length + 1 := by
      rw [literalEncode_length k bs hlen]
      omega
    exact decompLoopF_literal k bs [] ((literalEncode bs).length + 1) hlen hfuel

theorem mtf_decompress_bit_scan_semantics_witness :
    procBits 2 1 [1, 0] [65] 3 = procBits 1 0 [] [65, 65, 65, 65] 0 ∧
    mtf_decompress (literalEncode [1, 2, 3, 4, 5, 6, 7, 8]) 8 = .ok [1, 2, 3, 4, 5, 6, 7, 8] := by
  constructor
  · have h := mtf_decompress_bit_scan_semantics.1 2 0 [] [] 3 (by decide) (by decide)
    simpa using h
  · have h := mtf_decompress_bit_scan_semantics.2.1 1 [1, 2, 3, 4, 5, 6, 7, 8] (by decide)
    simpa using h

/-- C4 counterexample: a zero control word read while the remaining-byte
counter is still positive (here `2`) merely breaks out of the current chunk
(first equation) and decoding silently continues with the next control byte
all the way to success (second equation) — no `FormatError` and no
diagnostic of any kind is raised for the ambiguous mid-block zero word. -/
theorem mtf_zero_word_midblock_silent :
    procBits 2 8 [0, 0, 3, 65, 66, 0, 0] [] 2 = .next [3, 65, 66, 0, 0] [] 2 ∧
    mtf_decompress [2, 0, 0, 3, 65, 66, 0, 0] 2 = .ok [65, 66] :=
  ⟨rfl, rfl⟩

/-- C4 (amended): a zero 16-bit control word stops the processing of the
remaining bits of the current control byte and falls through to the
remaining-bytes check; if it occurs while the counter is still positive the
decoder raises no error and silently continues with the next control byte
(concrete instance in the second conjunct). -/
theorem mtf_zero_word_breaks_chunk :
    (∀ (c n b0 b1 : Nat) (rest out : List Nat) (left : Int),
      c % 2 = 0 → b0 + 256 * b1 = 0 →
      procBits c (n + 1) (b0 :: b1 :: rest) out left = .next rest out left) ∧
    mtf_decompress [2, 0, 0, 1, 65, 0, 0] 1 = .ok [65] :=
  ⟨fun c n b0 b1 rest out left hc hw =>
    procBits_zero_word (c := c) n b0 b1 rest out left hc hw, rfl⟩

theorem mtf_zero_word_breaks_chunk_witness :
    procBits 4 8 [0, 0, 9, 9] [7] 5 = .next [9, 9] [7] 5 :=
  mtf_zero_word_breaks_chunk.1 4 7 0 0 [9, 9] [7] 5 (by decide) (by decide)

theorem readU32_none_iff (l : List Nat) : readU32 l = none ↔ l.length < 4 := by
  rcases l with _ | ⟨a, _ | ⟨b, _ | ⟨c, _ | ⟨d, rest⟩⟩⟩⟩ <;> simp [readU32]

theorem readU32_some_length {l : List Nat} {v : Nat} {rest : List Nat}
    (h : readU32 l = some (v, rest)) : l.length = rest.length + 4 := by
  rcases l with _ | ⟨a, _ | ⟨b, _ | ⟨c, _ | ⟨d, r⟩⟩⟩⟩ <;> simp [readU32] at h
  obtain ⟨-, h2⟩ := h
  subst h2
  simp

theorem readEntryRecord_error {input : List Nat} {e : OpenError}
    (h : readEntryRecord input = .error e) : e = .ioError := by
  rcases h1 : readU32 input with - | ⟨flen, input1⟩ <;> simp [readEntryRecord, h1] at h
  · exact h.symm
  · rcases h2 : readU32 (input1.drop flen) with - | ⟨doff, input3⟩ <;> simp [h2] at h
    · exact h.symm
    · rcases h3 : readU32 input3 with - | ⟨dsize, input4⟩ <;> simp [h3] at h
      exact h.symm

/-- Whenever an entry record parses completely, the filename read got every
one of its `filenameLength` bytes: a short filename `fread` exhausts the
stream and the very next 32-bit read fails. -/
theorem readEntryRecord_ok_filename {input : List Nat} {entry : mtf_file_entry_t}
    {rest : List Nat} (h : readEntryRecord input = .ok (entry, rest)) :
    entry.filename.length = entry.filenameLength := by
  rcases h1 : readU32 input with - | ⟨flen, input1⟩ <;> simp [readEntryRecord, h1] at h
  rcases h2 : readU32 (input1.drop flen) with - | ⟨doff, input3⟩ <;> simp [h2] at h
  rcases h3 : readU32 input3 with - | ⟨dsize, input4⟩ <;> simp [h3] at h
  have hd := readU32_some_length h2
  simp only [List.length_drop] at hd
  obtain ⟨he, -⟩ := h
  subst he
  simp only [List.length_take]
  omega

theorem readEntries_error {n : Nat} {input : List Nat} {e : OpenError}
    (h : readEntries n input = .error e) : e = .ioError := by
  induction n generalizing input with
  | zero => simp [readEntries] at h
  | succ n ih =>
    rcases h1 : readEntryRecord input with e1 | ⟨entry, input2⟩ <;>
      simp [readEntries, h1] at h
    · exact h ▸ readEntryRecord_error h1
    · rcases h2 : readEntries n input2 with e2 | ⟨es, restOut⟩ <;> simp [h2] at h
      subst h
      exact ih h2

theorem readEntries_ok_length {n : Nat} {input : List Nat}
    {es : List mtf_file_entry_t} {rest : List Nat}
    (h : readEntries n input = .ok (es, rest)) : es.length = n := by
  induction n generalizing input es rest with
  | zero =>
    simp only [readEntries, Except.ok.injEq, Prod.mk.injEq] at h
    obtain ⟨h1, -⟩ := h
    subst h1
    rfl
  | succ n ih =>
    rcases h1 : readEntryRecord input with e1 | ⟨entry, input2⟩ <;>
      simp [readEntries, h1] at h
    rcases h2 : readEntries n input2 with e2 | ⟨es2, restOut⟩ <;> simp [h2] at h
    obtain ⟨h3, -⟩ := h
    subst h3
    simp [ih h2]

theorem readEntries_ok_filename {n : Nat} {input : List Nat}
    {es : List mtf_file_entry_t} {rest : List Nat}
    (h : readEntries n input = .ok (es, rest)) :
    ∀ entry ∈ es, entry.filename.length = entry.filenameLength := by
  induction n generalizing input es rest with
  | zero =>
    simp only [readEntries, Except.ok.injEq, Prod.mk.injEq] at h
    obtain ⟨h1, -⟩ := h
    subst h1
    intro entry he
    simp at he
  | succ n ih =>
    rcases h1 : readEntryRecord input with e1 | ⟨entry1, input2⟩ <;>
      simp [readEntries, h1] at h
    rcases h2 : readEntries n input2 with e2 | ⟨es2, restOut⟩ <;> simp [h2] at h
    obtain ⟨h3, -⟩ := h
    subst h3
    intro entry he
    rcases List.mem_cons.mp he with rfl | he2
    · exact readEntryRecord_ok_filename h1
    · exact ih h2 entry he2

theorem lexLe_total : ∀ a b : List Nat, lexLe a b = true ∨ lexLe b a = true := by
  intro a
  induction a with
  | nil => intro b; left; rfl
  | cons x as ih =>
    intro b
    rcases b with _ | ⟨y, bs⟩
    · right; rfl
    · simp only [lexLe]
      rcases Nat.lt_trichotomy x y with h | h | h
      · left; simp [h]
      · subst h
        simp only [Nat.lt_irrefl, if_false]
        exact ih bs
      · right; simp [h]

theorem lexLe_trans : ∀ a b c : List Nat,
    lexLe a b = true → lexLe b c = true → lexLe a c = true := by
  intro a
  induction a with
  | nil => intro b c _ _; rfl
  | cons x as ih =>
    intro b c h1 h2
    rcases b with _ | ⟨y, bs⟩
    · simp [lexLe] at h1
    · rcases c with _ | ⟨z, cs⟩
      · simp [lexLe] at h2
      · simp only [lexLe] at h1 h2 ⊢
        split_ifs at h1 h2 ⊢ <;> first
          | rfl
          | omega
          | (exact ih bs cs h1 h2)

theorem insertSorted_length {α : Type} (le : α → α → Bool) (x : α) :
    ∀ l : List α, (insertSorted le x l).length = l.length + 1 := by
  intro l
  induction l with
  | nil => rfl
  | cons y ys ih =>
    simp only [insertSorted]
    by_cases h : le x y
    · simp [h]
    · simp [h, ih]

theorem sortByLe_length {α : Type} (le : α → α → Bool) :
    ∀ l : List α, (sortByLe le l).length = l.length := by
  intro l
  induction l with
  | nil => rfl
  | cons x xs ih => simp [sortByLe, insertSorted_length, ih]

theorem mem_insertSorted {α : Type} (le : α → α → Bool) (x a : α) :
    ∀ l : List α, a ∈ insertSorted le x l ↔ a = x ∨ a ∈ l := by
  intro l
  induction l with
  | nil => simp [insertSorted]
  | cons y ys ih =>
    simp only [insertSorted]
    by_cases h : le x y
    · simp [h, List.mem_cons]
    · simp [h, List.mem_cons, ih]
      tauto

theorem mem_sortByLe {α : Type} (le : α → α → Bool) (a : α) :
    ∀ l : List α, a ∈ sortByLe le l ↔ a ∈ l := by
  intro l
  induction l with
  | nil => simp [sortByLe]
  | cons x xs ih => simp [sortByLe, mem_insertSorted, ih, List.mem_cons]

theorem pairwise_insertSorted {α : Type} (le : α → α → Bool)
    (htot : ∀ a b, le a b = true ∨ le b a = true)
    (htrans : ∀ a b c, le a b = true → le b c = true → le a c = true)
    (x : α) : ∀ l : List α, l.Pairwise (fun a b => le a b = true) →
    (insertSorted le x l).Pairwise (fun a b => le a b = true) := by
  intro l
  induction l with
  | nil => intro _; simp [insertSorted]
  | cons y ys ih =>
    intro hp
    rcases List.pairwise_cons.mp hp with ⟨hy, hys⟩
    simp only [insertSorted]
    by_cases h : le x y
    · simp only [if_pos h]
      refine List.pairwise_cons.mpr ⟨?_, hp⟩
      intro b hb
      rcases List.mem_cons.mp hb with rfl | hb2
      · exact h
      · exact htrans x y b h (hy b hb2)
    · simp only [if_neg h]
      refine List.pairwise_cons.mpr ⟨?_, ih hys⟩
      intro b hb
      rcases (mem_insertSorted le x b ys).mp hb with rfl | hb2
      · rcases htot b y with h1 | h1
        · exact absurd h1 h
        · exact h1
      · exact hy b hb2

theorem pairwise_sortByLe {α : Type} (le : α → α → Bool)
    (htot : ∀ a b, le a b = true ∨ le b a = true)
    (htrans : ∀ a b c, le a b = true → le b c = true → le a c = true) :
    ∀ l : List α, (sortByLe le l).Pairwise (fun a b => le a b = true) := by
  intro l
  induction l with
  | nil => simp [sortByLe]
  | cons x xs ih => exact pairwise_insertSorted le htot htrans x (sortByLe le xs) ih

theorem mtf_sort_by_filename_le_total (a b : mtf_file_entry_t) :
    mtf_sort_by_filename_le a b = true ∨ mtf_sort_by_filename_le b a = true :=
  lexLe_total (cstr a.filename) (cstr b.filename)

theorem mtf_sort_by_filename_le_trans (a b c : mtf_file_entry_t)
    (h1 : mtf_sort_by_filename_le a b = true)
    (h2 : mtf_sort_by_filename_le b c = true) :
    mtf_sort_by_filename_le a c = true :=
  lexLe_trans (cstr a.filename) (cstr b.filename) (cstr c.filename) h1 h2

/-- C5: (1) `mtf_file_open` fails with the `FormatError` exactly when the
32-bit entry count reads as zero; every other failure — a short read at the
entry count, a filename-length word, the filename bytes (which exhaust the
stream and make backslash the following read fail), the data offset or the
decompressed size — is an `IoError` (2, 3); and open succeeds only when the
complete table was read: every loaded entry holds all of its declared
filename bytes (4). -/
theorem mtf_file_open_error_classification :
    (∀ archive : List Nat,
      mtf_file_open archive = .error .formatError ↔
        ∃ rest, readU32 archive = some (0, rest)) ∧
    (∀ archive : List Nat, archive.length < 4 →
      mtf_file_open archive = .error .ioError) ∧
    (∀ (archive : List Nat) (e : OpenError), mtf_file_open archive = .error e →
      (¬∃ rest, readU32 archive = some (0, rest)) → e = .ioError) ∧
    (∀ (archive : List Nat) (es : List mtf_file_entry_t),
      mtf_file_open archive = .ok es →
      ∀ entry ∈ es, entry.filename.length = entry.filenameLength) := by
  have hfmt : ∀ archive : List Nat,
      mtf_file_open archive = .error .formatError ↔
        ∃ rest, readU32 archive = some (0, rest) := by
    intro archive
    constructor
    · intro h
      rcases h1 : readU32 archive with - | ⟨count, rest⟩
      · simp [mtf_file_open, h1] at h
      · by_cases hc : count = 0
        · subst hc
          exact ⟨rest, rfl⟩
        · simp only [mtf_file_open, h1, if_neg hc] at h
          rcases h2 : readEntries count rest with e2 | ⟨es, r2⟩
          · rw [readEntries_error h2] at h2
            simp [h2] at h
          · simp [h2] at h
    · rintro ⟨rest, h1⟩
      simp [mtf_file_open, h1]
  refine ⟨hfmt, ?_, ?_, ?_⟩
  · intro archive hlen
    have h1 : readU32 archive = none := (readU32_none_iff archive).mpr hlen
    simp [mtf_file_open, h1]
  · intro archive e h hne
    rcases e with - | -
    · rfl
    · exact absurd ((hfmt archive).mp h) hne
  · intro archive es h entry hmem
    rcases h1 : readU32 archive with - | ⟨count, rest⟩
    · simp [mtf_file_open, h1] at h
    · simp only [mtf_file_open, h1] at h
      by_cases hc : count = 0
      · rw [if_pos hc] at h
        simp at h
      · rw [if_neg hc] at h
        rcases h2 : readEntries count rest with e2 | ⟨es0, r2⟩
        · simp [h2] at h
        · simp only [h2, Except.ok.injEq] at h
          subst h
          exact readEntries_ok_filename h2 entry
            ((mem_sortByLe mtf_sort_by_filename_le entry es0).mp hmem)

theorem mtf_file_open_error_classification_witness :
    mtf_file_open [0, 0, 0, 0] = .error .formatError ∧
    mtf_file_open [7, 7] = .error .ioError ∧
    OpenError.ioError = .ioError ∧
    ([97] : List Nat).length = 1 :=
  ⟨(mtf_file_open_error_classification.1 [0, 0, 0, 0]).mpr ⟨[], rfl⟩,
   mtf_file_open_error_classification.2.1 [7, 7] (by decide),
   mtf_file_open_error_classification.2.2.1 [7, 7, 7] .ioError rfl (by simp [readU32]),
   mtf_file_open_error_classification.2.2.2
     [1, 0, 0, 0, 1, 0, 0, 0, 97, 5, 0, 0, 0, 9, 0, 0, 0]
     [{ filename := [97], filenameLength := 1, dataOffset := 5, decompressedSize := 9 }]
     rfl
     { filename := [97], filenameLength := 1, dataOffset := 5, decompressedSize := 9 }
     (by simp)⟩

/-- C7: for an archive declaring `N > 0` entries, a successful open yields
exactly `N` entry descriptors, pairwise arranged in ascending filename order
under the total byte-wise (`strcmp`) comparison — whatever order the records
had on disk. -/
theorem mtf_file_open_sorted_count (archive : List Nat) (N : Nat) (p : List Nat)
    (es : List mtf_file_entry_t)
    (hcount : readU32 archive = some (N, p))
    (hok : mtf_file_open archive = .ok es) :
    es.length = N ∧
      es.Pairwise (fun a b => mtf_sort_by_filename_le a b = true) := by
  simp only [mtf_file_open, hcount] at hok
  by_cases hc : N = 0
  · simp [hc] at hok
  · rw [if_neg hc] at hok
    rcases h2 : readEntries N p with e2 | ⟨es0, r2⟩ <;> simp [h2] at hok
    subst hok
    constructor
    · rw [sortByLe_length, readEntries_ok_length h2]
    · exact pairwise_sortByLe mtf_sort_by_filename_le
        mtf_sort_by_filename_le_total mtf_sort_by_filename_le_trans es0

theorem mtf_file_open_sorted_count_witness :
    ([{ filename := [97], filenameLength := 1, dataOffset := 0, decompressedSize := 0 },
      { filename := [98], filenameLength := 1, dataOffset := 0, decompressedSize := 0 }] :
        List mtf_file_entry_t).length = 2 ∧
    ([{ filename := [97], filenameLength := 1, dataOffset := 0, decompressedSize := 0 },
      { filename := [98], filenameLength := 1, dataOffset := 0, decompressedSize := 0 }] :
        List mtf_file_entry_t).Pairwise
      (fun a b => mtf_sort_by_filename_le a b = true) :=
  mtf_file_open_sorted_count
    [2, 0, 0, 0,
     1, 0, 0, 0, 98, 0, 0, 0, 0, 0, 0, 0, 0,
     1, 0, 0, 0, 97, 0, 0, 0, 0, 0, 0, 0, 0]
    2 _ _ rfl rfl

/-- C10 counterexample: on a handle whose `fileEntries` is already NULL but
whose `fileEntryCount` is 5 (exactly the state `mtf_file_open` builds if its
`calloc` fails after the count was read), `mtf_file_close` leaves the count
at 5 — not 0 as the claim requires after any call. -/
theorem mtf_file_close_count_not_reset :
    mtf_file_close
        (some { osFileHandle := true, fileEntries := none, fileEntryCount := 5 }) =
      some { osFileHandle := false, fileEntries := none, fileEntryCount := 5 } ∧
    (5 : Nat) ≠ 0 :=
  ⟨rfl, by decide⟩

/-- C10 (amended): `mtf_file_close` is total and idempotent — a NULL pointer
is a no-op, a second close changes nothing (and hence frees nothing twice,
including after a failed `mtf_file_open`, which already closed the handle).
After any call `osFileHandle` and `fileEntries` are NULL; `fileEntryCount`
is reset to 0 when `fileEntries` was non-NULL but is left unchanged when it
was already NULL. -/
theorem mtf_file_close_total_idempotent :
    mtf_file_close none = none ∧
    (∀ s : Option mtf_file_t, mtf_file_close (mtf_file_close s) = mtf_file_close s) ∧
    (∀ (h : Bool) (l : List mtf_file_entry_t) (c : Nat),
      mtf_file_close (some ⟨h, some l, c⟩) = some ⟨false, none, 0⟩) ∧
    (∀ (h : Bool) (c : Nat),
      mtf_file_close (some ⟨h, none, c⟩) = some ⟨false, none, c⟩) := by
  refine ⟨rfl, ?_, ?_, ?_⟩
  · intro s
    rcases s with - | ⟨h, fe, c⟩
    · rfl
    · rcases h <;> rcases fe with - | l <;> simp [mtf_file_close]
  · intro h l c
    rcases h <;> simp [mtf_file_close]
  · intro h c
    rcases h <;> simp [mtf_file_close]

/-- C6: (1) a header classifies the entry as compressed iff the first magic
byte is `0xAE` or `0xAF` *and* the second is `0xBE`; (2) for any other byte
pair the entry is raw and, when the declared range lies inside the archive,
its extracted output is byte-for-byte the archive bytes starting at
`dataOffset` for `decompressedSize` bytes — the offset of the 12-byte peek,
not 12 bytes past it, so the peek is rewound, not consumed. -/
theorem mtf_is_compressed_iff_and_raw_copy :
    (∀ header : mtf_compressed_header_t,
      mtf_is_compressed header = true ↔
        ((header.magic1 = 0xAE ∨ header.magic1 = 0xAF) ∧ header.magic2 = 0xBE)) ∧
    (∀ (archive : List Nat) (header : mtf_compressed_header_t)
       (entry : mtf_file_entry_t),
      mtf_is_compressed header = false →
      entry.dataOffset + entry.decompressedSize ≤ archive.length →
      extractEntryPayload archive header entry =
        some ((archive.drop entry.dataOffset).take entry.decompressedSize)) := by
  constructor
  · intro header
    simp only [mtf_is_compressed]
    split_ifs with h1 h2 <;> simp <;> tauto
  · intro archive header entry hraw hrange
    simp only [extractEntryPayload, hraw, Bool.false_eq_true, if_false, mtf_write_file,
      if_pos hrange]

theorem mtf_is_compressed_iff_and_raw_copy_witness :
    mtf_is_compressed
        { magic1 := 0xAF, magic2 := 0xBE, unknown := 0,
          compressedSize := 0, decompressedSize := 0 } = true ∧
    extractEntryPayload [9, 9, 8, 7]
        { magic1 := 0, magic2 := 0, unknown := 0,
          compressedSize := 0, decompressedSize := 0 }
        { filename := [], filenameLength := 0, dataOffset := 1, decompressedSize := 2 } =
      some [9, 8] :=
  ⟨(mtf_is_compressed_iff_and_raw_copy.1 _).mpr (by simp),
   by
    have h := mtf_is_compressed_iff_and_raw_copy.2 [9, 9, 8, 7]
      { magic1 := 0, magic2 := 0, unknown := 0,
        compressedSize := 0, decompressedSize := 0 }
      { filename := [], filenameLength := 0, dataOffset := 1, decompressedSize := 2 }
      rfl (by decide)
    simpa using h⟩

/-- C8: (1) filename `A\B\É.txt` under destination root `out` materializes
as `out/A/B/?.txt` (backslashes to `'/'`, the non-ASCII byte `0xC9` to
`'?'`); (2) running `mtf_make_path` on it in an empty file system creates
exactly the intermediate directories `out`, `out/A` and `out/A/B`; (3) an
already-existing directory is not an error and changes nothing; (4) a
component colliding with an existing plain file fails. -/
theorem mtf_path_materialization :
    materializePath [111, 117, 116] [65, 92, 66, 92, 201, 46, 116, 120, 116] =
      [111, 117, 116, 47, 65, 47, 66, 47, 63, 46, 116, 120, 116] ∧
    mtf_make_path [] [111, 117, 116, 47, 65, 47, 66, 47, 63, 46, 116, 120, 116] =
      some [([111, 117, 116, 47, 65, 47, 66], true),
            ([111, 117, 116, 47, 65], true),
            ([111, 117, 116], true)] ∧
    (∀ (fs : List (List Nat × Bool)) (d : List Nat),
      pathLookup fs d = some true → mtf_make_directory fs d = some fs) ∧
    (∀ (fs : List (List Nat × Bool)) (d : List Nat),
      pathLookup fs d = some false → mtf_make_directory fs d = none) := by
  refine ⟨rfl, rfl, ?_, ?_⟩
  · intro fs d h
    simp [mtf_make_directory, h]
  · intro fs d h
    simp [mtf_make_directory, h]

theorem mtf_path_materialization_witness :
    mtf_make_directory [([65], true)] [65] = some [([65], true)] ∧
    mtf_make_directory [([65], false)] [65] = none :=
  ⟨mtf_path_materialization.2.2.1 [([65], true)] [65] rfl,
   mtf_path_materialization.2.2.2 [([65], false)] [65] rfl⟩

theorem extractLoop_skip {archive : List Nat} (m : Int)
    {entry : mtf_file_entry_t} {header : mtf_compressed_header_t}
    (rest : List mtf_file_entry_t) (n : Nat)
    (hh : mtf_read_compressed_header archive entry.dataOffset = some header)
    (hp : extractEntryPayload archive header entry = none) :
    extractLoop archive m (entry :: rest) n = extractLoop archive m rest n := by
  simp [extractLoop, hh, hp]

theorem extractLoop_success_stop {archive : List Nat} {m : Int}
    {entry : mtf_file_entry_t} {header : mtf_compressed_header_t} {bytes : List Nat}
    (rest : List mtf_file_entry_t) {n : Nat}
    (hh : mtf_read_compressed_header archive entry.dataOffset = some header)
    (hp : extractEntryPayload archive header entry = some bytes)
    (hcap : m > 0 ∧ ((n + 1 : Nat) : Int) = m) :
    extractLoop archive m (entry :: rest) n = some (n + 1) := by
  simp [extractLoop, hh, hp, hcap]

theorem extractLoop_success_continue {archive : List Nat} {m : Int}
    {entry : mtf_file_entry_t} {header : mtf_compressed_header_t} {bytes : List Nat}
    (rest : List mtf_file_entry_t) {n : Nat}
    (hh : mtf_read_compressed_header archive entry.dataOffset = some header)
    (hp : extractEntryPayload archive header entry = some bytes)
    (hcap : ¬(m > 0 ∧ ((n + 1 : Nat) : Int) = m)) :
    extractLoop archive m (entry :: rest) n =
      extractLoop archive m rest (n + 1) := by
  simp only [extractLoop, hh, hp]
  rw [if_neg hcap]

/-- From a successful `entryExtractOk`, the concrete header and payload. -/
theorem entryExtractOk_elim {archive : List Nat} {entry : mtf_file_entry_t}
    (h : entryExtractOk archive entry = true) :
    ∃ header bytes, mtf_read_compressed_header archive entry.dataOffset = some header ∧
      extractEntryPayload archive header entry = some bytes := by
  rcases hh : mtf_read_compressed_header archive entry.dataOffset with - | header
  · simp [entryExtractOk, hh] at h
  · rcases hp : extractEntryPayload archive header entry with - | bytes
    · simp [entryExtractOk, hh, hp] at h
    · exact ⟨header, bytes, rfl, hp⟩

/-- Running the loop over a block of succeeding entries whose length lands
exactly on a positive cap stops right at the cap, never looking at the
remaining entries. -/
theorem extractLoop_cap_aux (archive : List Nat) (m : Int) :
    ∀ (good rest : List mtf_file_entry_t) (n : Nat),
      (∀ e ∈ good, entryExtractOk archive e = true) →
      (n : Int) + good.length = m → 0 < good.length →
      extractLoop archive m (good ++ rest) n = some (n + good.length) := by
  intro good
  induction good with
  | nil => intro rest n _ _ hpos; simp at hpos
  | cons g gs ih =>
    intro rest n hok hm hpos
    obtain ⟨header, bytes, hh, hp⟩ := entryExtractOk_elim (hok g (by simp))
    rcases hgs : gs with - | ⟨g2, gs2⟩
    · subst hgs
      have hcap : m > 0 ∧ ((n + 1 : Nat) : Int) = m := by
        simp only [List.length_cons, List.length_nil] at hm
        push_cast at hm ⊢
        constructor <;> omega
      rw [List.cons_append, extractLoop_success_stop (([] : List mtf_file_entry_t) ++ rest) hh hp hcap]
      simp
    · have hcap : ¬(m > 0 ∧ ((n + 1 : Nat) : Int) = m) := by
        rintro ⟨-, h2⟩
        subst hgs
        simp only [List.length_cons] at hm
        push_cast at hm h2
        omega
      subst hgs
      rw [List.cons_append, extractLoop_success_continue ((g2 :: gs2) ++ rest) hh hp hcap]
      have h2 := ih rest (n + 1) (fun e he => hok e (by simp [he]))
        (by simp only [List.length_cons] at hm ⊢; push_cast at hm ⊢; omega)
        (by simp)
      rw [h2]
      simp only [List.length_cons]
      congr 1
      omega

/-- C3 (amended): with the entry table loaded, (1) a failed entry payload
(decompression error or short read) only skips that entry — the loop goes
on with the next entry and the failed one adds nothing to the success
count; (2) the batch always reports success with the count of the entries
that did extract: on a healthy stream there is no fatal per-entry path,
because a short 12-byte header read is not detected (the `fread` sets only
the end-of-file flag and the probe checks `ferror`); (3) for an entry whose
offset lies past the end of the archive, *whatever* indeterminate bytes the
header then holds, the entry's payload fails and the entry is skipped like
any other per-entry failure.  The code's fatal abort on a header-probe
failure remains in `extractLoop` but is reachable only through a
device-level stream error. -/
theorem mtf_extract_batch_partial_failure_policy :
    (∀ (archive : List Nat) (m : Int) (entry : mtf_file_entry_t)
       (header : mtf_compressed_header_t) (rest : List mtf_file_entry_t) (n : Nat),
      mtf_read_compressed_header archive entry.dataOffset = some header →
      extractEntryPayload archive header entry = none →
      extractLoop archive m (entry :: rest) n = extractLoop archive m rest n) ∧
    (∀ (archive : List Nat) (m : Int) (entries : List mtf_file_entry_t) (n : Nat),
      (extractLoop archive m entries n).isSome = true) ∧
    (∀ (archive : List Nat) (entry : mtf_file_entry_t)
       (header : mtf_compressed_header_t),
      archive.length ≤ entry.dataOffset → 0 < entry.decompressedSize →
      extractEntryPayload archive header entry = none) := by
  refine ⟨?_, ?_, ?_⟩
  · intro archive m entry header rest n hh hp
    exact extractLoop_skip m rest n hh hp
  · intro archive m entries
    induction entries with
    | nil => intro n; rfl
    | cons e es ih =>
      intro n
      have hh : mtf_read_compressed_header archive e.dataOffset =
          some (mtf_compressed_header_bytes archive e.dataOffset) := rfl
      rcases hp : extractEntryPayload archive
          (mtf_compressed_header_bytes archive e.dataOffset) e with - | bytes
      · rw [extractLoop_skip m es n hh hp]
        exact ih n
      · by_cases hcap : m > 0 ∧ ((n + 1 : Nat) : Int) = m
        · rw [extractLoop_success_stop es hh hp hcap]
          rfl
        · rw [extractLoop_success_continue es hh hp hcap]
          exact ih (n + 1)
  · intro archive entry header h1 h2
    by_cases hc : mtf_is_compressed header
    · have hdrop : archive.drop (entry.dataOffset + 12) = [] := by
        rw [List.drop_eq_nil_iff]
        omega
      have hdec : mtf_decompress [] entry.decompressedSize = .error .readFail := by
        unfold mtf_decompress
        simp only [List.length_nil]
        exact decompLoopF_nil 0 [] _ (by omega)
      simp [extractEntryPayload, hc, hdrop, hdec, Except.toOption]
    · simp only [extractEntryPayload, if_neg hc, mtf_write_file]
      rw [if_neg (by omega)]

/-- C9: (1) with a positive cap equal to `m = good.length`, if the first
`m` entries all extract, the loop stops right after the `m`-th success and
reports exactly `m`, whatever entries follow (they are neither attempted
nor counted — the result does not depend on `rest`); (2) with a
non-positive cap (`MTF_EXTRACT_ALL` is `-1`) every entry of the table is
attempted and the count is the number of entries whose payload extracts. -/
theorem mtf_extract_batch_cap :
    (∀ (archive : List Nat) (good rest : List mtf_file_entry_t),
      0 < good.length →
      (∀ e ∈ good, entryExtractOk archive e = true) →
      extractLoop archive (good.length : Int) (good ++ rest) 0 = some good.length) ∧
    (∀ (archive : List Nat) (m : Int) (entries : List mtf_file_entry_t) (n : Nat),
      m ≤ 0 →
      (∀ e ∈ entries, e.dataOffset + 12 ≤ archive.length) →
      extractLoop archive m entries n =
        some (n + entries.countP (fun e => entryExtractOk archive e))) := by
  constructor
  · intro archive good rest hpos hok
    have h := extractLoop_cap_aux archive (good.length : Int) good rest 0 hok (by push_cast; omega) hpos
    simpa using h
  · intro archive m entries
    induction entries with
    | nil => intro n _ _; simp [extractLoop]
    | cons e es ih =>
      intro n hm hall
      rcases hh : mtf_read_compressed_header archive e.dataOffset with - | header
      · simp [mtf_read_compressed_header] at hh
      · rcases hp : extractEntryPayload archive header e with - | bytes
        · rw [extractLoop_skip m es n hh hp]
          rw [ih n hm (fun x hx => hall x (by simp [hx]))]
          have hek : entryExtractOk archive e = false := by
            simp [entryExtractOk, hh, hp]
          simp [List.countP_cons, hek]
        · have hcap : ¬(m > 0 ∧ ((n + 1 : Nat) : Int) = m) := by
            rintro ⟨h1, -⟩
            omega
          rw [extractLoop_success_continue es hh hp hcap]
          rw [ih (n + 1) hm (fun x hx => hall x (by simp [hx]))]
          have hek : entryExtractOk archive e = true := by
            simp [entryExtractOk, hh, hp]
          simp [List.countP_cons, hek]
          omega

/-- C3 counterexample: `exampleTruncEntry`'s 12-byte header read comes up
short (its offset is past the end of the archive), yet the probe succeeds —
`fread` sets only the end-of-file flag and `mtf_read_compressed_header`
returns `!ferror` — so the batch proceeds with an indeterminate header,
fails the entry's payload, *skips* it, and reports success (`some 0`); it
does not abort fatally (`none`) as the claim requires for a failure reading
the compression-info header. -/
theorem mtf_probe_short_read_not_fatal :
    exampleArchive.length < exampleTruncEntry.dataOffset + 12 ∧
    extractLoop exampleArchive (-1) [exampleTruncEntry] 0 = some 0 ∧
    (some 0 : Option Nat) ≠ none :=
  ⟨by decide, rfl, by decide⟩

theorem mtf_extract_batch_partial_failure_policy_witness :
    extractLoop exampleArchive (-1) [exampleBadEntry, exampleGoodEntry] 0 =
      extractLoop exampleArchive (-1) [exampleGoodEntry] 0 ∧
    (extractLoop exampleArchive (-1) [exampleGoodEntry, exampleBadEntry] 0).isSome = true ∧
    extractEntryPayload exampleArchive
        { magic1 := 0xAE, magic2 := 0xBE, unknown := 0,
          compressedSize := 0, decompressedSize := 0 }
        exampleTruncEntry = none :=
  ⟨mtf_extract_batch_partial_failure_policy.1 exampleArchive (-1) exampleBadEntry
      { magic1 := 0, magic2 := 0, unknown := 0, compressedSize := 0, decompressedSize := 0 }
      [exampleGoodEntry] 0 rfl rfl,
   mtf_extract_batch_partial_failure_policy.2.1 exampleArchive (-1)
      [exampleGoodEntry, exampleBadEntry] 0,
   mtf_extract_batch_partial_failure_policy.2.2 exampleArchive exampleTruncEntry
      { magic1 := 0xAE, magic2 := 0xBE, unknown := 0,
        compressedSize := 0, decompressedSize := 0 }
      (by decide) (by decide)⟩

theorem mtf_extract_batch_cap_witness :
    extractLoop exampleArchive
        (([exampleGoodEntry, exampleGoodEntry] : List mtf_file_entry_t).length : Int)
        ([exampleGoodEntry, exampleGoodEntry] ++ [exampleBadEntry]) 0 =
      some ([exampleGoodEntry, exampleGoodEntry] : List mtf_file_entry_t).length ∧
    extractLoop exampleArchive (-1) [exampleGoodEntry, exampleBadEntry] 0 =
      some (0 + ([exampleGoodEntry, exampleBadEntry] : List mtf_file_entry_t).countP
        (fun e => entryExtractOk exampleArchive e)) :=
  ⟨mtf_extract_batch_cap.1 exampleArchive [exampleGoodEntry, exampleGoodEntry]
      [exampleBadEntry] (by decide) (by decide),
   mtf_extract_batch_cap.2 exampleArchive (-1) [exampleGoodEntry, exampleBadEntry] 0
      (by decide) (by decide)⟩

end DarkstoneMtf

